import Mathlib

/-!
# Verification of the `nqueens-genetic` repository

Shallow embedding of the N-Queens genetic-algorithm variants:

* `IntegerSimple` embeds `variant_ga_integer_simple.py`;
* `BinarySimple` embeds `variant_ga_binary_simple.py`;
* `Optimized` embeds `variant_ga_optimized.py`.

Individuals are embedded as `List Int` (Python `array` with typecode `'i'`)
respectively `List Nat` (typecode `'B'`, the bit genome).  The evolution
engine `eaSimpleWithElitism` lives in the repository module `algorithms`,
whose source is not available; it and the DEAP operators are modelled from
the specification where needed (each such definition is marked
`Modelled from the spec:`).
-/

namespace NQueens

/-! ## Integer-encoded variant: `variant_ga_integer_simple.py` -/

namespace IntegerSimple

/-- Embedding of `get_violations_count` from `variant_ga_integer_simple.py`
(lines 24–41).  The Python double loop
`for i in range(queens_amount): for j in range(i+1, queens_amount): if ...`
accumulating a counter is rendered as the sum over `i` of the number of
`j ∈ [i+1, queens_amount)` satisfying the loop condition.  The Python
one-element tuple return value `(non_violations_amount,)` is modelled as the
bare count. -/
def get_violations_count (individual : List Int) (queens_amount : Nat) : Nat :=
  ((List.range queens_amount).map fun i =>
    (List.range' (i + 1) (queens_amount - (i + 1))).countP fun j =>
      individual.getD i 0 == individual.getD j 0 ||
        ((i : Int) - (j : Int)).natAbs == (individual.getD i 0 - individual.getD j 0).natAbs).sum

end IntegerSimple

/-! ## Binary-packed variant: `variant_ga_binary_simple.py` -/

namespace BinarySimple

/-- The `while e < bits_amount and v < queens_amount` loop of `get_value`
(`variant_ga_binary_simple.py`, lines 43–46).  Returns the final values of
the Python variables `(v, e)`.  List indexing `ind[k+e]` is modelled with
`List.getD` (the loop indices are in bounds for well-formed genomes; see the
instrumented model `get_valueA` below for the index-safety analysis). -/
def get_value_loop (ind : List Nat) (k queens_amount bits_amount v e : Nat) : Nat × Nat :=
  if h : e < bits_amount ∧ v < queens_amount then
    get_value_loop ind k queens_amount bits_amount (v + ind.getD (k + e) 0 * 2 ^ e) (e + 1)
  else
    (v, e)
termination_by bits_amount - e
decreasing_by omega

/-- Embedding of `get_value` from `variant_ga_binary_simple.py` (lines 25–55):
decode the column value of row `pos` from the bit genome.  After the loop, if
`v >= queens_amount` the last added summand `ind[k+e-1]*2**(e-1)` is removed
(Nat subtraction coincides with Python's subtraction there because the
summand was just added).  The `e = 0` unwind case, where Python would compute
`ind[k-1]*2**(-1)`, is unreachable for `queens_amount ≥ 1`; this is proved
on the instrumented model `get_valueA` below. -/
def get_value (ind : List Nat) (pos queens_amount bits_amount : Nat) : Nat :=
  let k := pos * bits_amount
  let ve := get_value_loop ind k queens_amount bits_amount 0 0
  let v := ve.1
  let e := ve.2
  if queens_amount ≤ v then v - ind.getD (k + e - 1) 0 * 2 ^ (e - 1) else v

/-- Embedding of `get_violations_count` from `variant_ga_binary_simple.py`
(lines 58–84): the same pairwise loop as the integer variant, evaluated on
the decoded column values `get_value ind i queens_amount bits_amount`. -/
def get_violations_count (ind : List Nat) (queens_amount bits_amount : Nat) : Nat :=
  ((List.range queens_amount).map fun i =>
    (List.range' (i + 1) (queens_amount - (i + 1))).countP fun (j : Nat) =>
      get_value ind i queens_amount bits_amount == get_value ind j queens_amount bits_amount ||
        ((i : Int) - (j : Int)).natAbs ==
          ((get_value ind i queens_amount bits_amount : Int) -
            (get_value ind j queens_amount bits_amount : Int)).natAbs).sum

end BinarySimple

/-! ## Permutation (optimized) variant: `variant_ga_optimized.py` -/

namespace Optimized

/-- Embedding of `get_violations_count` from `variant_ga_optimized.py`
(lines 32–49): same double loop as the integer variant but the condition
only checks the diagonal, `abs(i-j) == abs(individual[i]-individual[j])`. -/
def get_violations_count (individual : List Int) (queens_amount : Nat) : Nat :=
  ((List.range queens_amount).map fun i =>
    (List.range' (i + 1) (queens_amount - (i + 1))).countP fun (j : Nat) =>
      ((i : Int) - (j : Int)).natAbs == (individual.getD i 0 - individual.getD j 0).natAbs).sum

end Optimized

/-! ## Generic pairwise-count machinery

Both violation counters are "count the pairs `(i, j)` with
`0 ≤ i < j < N` whose condition holds".  `pairCard` is the specification-side
pair count; `loopCount` is the shape shared by the two source embeddings. -/

/-- The number of pairs `(i, j)` with `0 ≤ i < j < N` satisfying `p i j`:
the cardinality of the corresponding subset of `range N × range N`. -/
def pairCard (p : Nat → Nat → Bool) (N : Nat) : Nat :=
  ((Finset.range N ×ˢ Finset.range N).filter fun q => q.1 < q.2 ∧ p q.1 q.2).card

/-- The nested-loop counting shape shared by the violation counters. -/
def loopCount (p : Nat → Nat → Bool) (N : Nat) : Nat :=
  ((List.range N).map fun i => (List.range' (i + 1) (N - (i + 1))).countP fun j => p i j).sum

theorem countP_range' (p : Nat → Bool) :
    ∀ (n s : Nat), (List.range' s n).countP p = ∑ j ∈ Finset.range n, if p (s + j) then 1 else 0
  | 0, s => by simp [List.range']
  | n + 1, s => by
    rw [List.range'_succ, List.countP_cons, countP_range' p n (s + 1), Finset.sum_range_succ']
    have h1 : ∀ j, s + 1 + j = s + (j + 1) := fun j => by omega
    simp [h1]

theorem sum_map_range (g : Nat → Nat) :
    ∀ N : Nat, ((List.range N).map g).sum = ∑ i ∈ Finset.range N, g i
  | 0 => by simp
  | N + 1 => by
    rw [List.range_succ, Finset.sum_range_succ, List.map_append, List.sum_append,
      sum_map_range g N]
    simp

theorem loopCount_eq_pairCard (p : Nat → Nat → Bool) (N : Nat) :
    loopCount p N = pairCard p N := by
  unfold loopCount pairCard
  rw [Finset.card_eq_sum_ones, Finset.sum_filter, Finset.sum_product,
    sum_map_range (fun i => (List.range' (i + 1) (N - (i + 1))).countP fun j => p i j) N]
  refine Finset.sum_congr rfl fun i hi => ?_
  rw [countP_range' (fun j => p i j) (N - (i + 1)) (i + 1)]
  have hfil : (Finset.range N).filter (fun j => i < j) = Finset.Ico (i + 1) N := by
    ext j
    simp only [Finset.mem_filter, Finset.mem_range, Finset.mem_Ico]
    omega
  have key : (∑ j ∈ Finset.range N, if i < j ∧ p i j = true then (1 : Nat) else 0)
      = ∑ j ∈ Finset.Ico (i + 1) N, if p i j = true then (1 : Nat) else 0 := by
    rw [← hfil, Finset.sum_filter]
    exact Finset.sum_congr rfl fun j _ => by
      by_cases h1 : i < j <;> by_cases h2 : p i j <;> simp [h1, h2]
  rw [key, Finset.sum_Ico_eq_sum_range]

theorem loopCount_eq_zero_iff (p : Nat → Nat → Bool) (N : Nat) :
    loopCount p N = 0 ↔ ∀ i j : Nat, i < j → j < N → p i j = false := by
  unfold loopCount
  rw [sum_map_range, Finset.sum_eq_zero_iff]
  constructor
  · intro h i j hij hjN
    have hcount := h i (Finset.mem_range.2 (hij.trans hjN))
    rw [List.countP_eq_zero] at hcount
    have hjmem : j ∈ List.range' (i + 1) (N - (i + 1)) := by
      rw [List.mem_range'_1]
      omega
    simpa using hcount j hjmem
  · intro h i hi
    rw [List.countP_eq_zero]
    intro j hj
    rw [List.mem_range'_1] at hj
    simp [h i j (by omega) (by omega)]

/-! ## Claim C1: the evaluation functions count violating pairs -/

/-- The violation condition of the integer encoding for the row pair `(i, j)`:
same column or same diagonal, read off the column values `ind[i]`, `ind[j]`. -/
def intViolation (ind : List Int) (i j : Nat) : Bool :=
  ind.getD i 0 == ind.getD j 0 ||
    ((i : Int) - (j : Int)).natAbs == (ind.getD i 0 - ind.getD j 0).natAbs

/-- The violation condition of the binary-packed encoding for the row pair
`(i, j)`: same column or same diagonal, read off the decoded column values
`get_value ind · queens_amount bits_amount`. -/
def binViolation (ind : List Nat) (queens_amount bits_amount i j : Nat) : Bool :=
  BinarySimple.get_value ind i queens_amount bits_amount ==
      BinarySimple.get_value ind j queens_amount bits_amount ||
    ((i : Int) - (j : Int)).natAbs ==
      ((BinarySimple.get_value ind i queens_amount bits_amount : Int) -
        (BinarySimple.get_value ind j queens_amount bits_amount : Int)).natAbs

theorem integer_count_eq_loopCount (ind : List Int) (N : Nat) :
    IntegerSimple.get_violations_count ind N = loopCount (intViolation ind) N := rfl

theorem binary_count_eq_loopCount (ind : List Nat) (N bits : Nat) :
    BinarySimple.get_violations_count ind N bits = loopCount (binViolation ind N bits) N := rfl

/-- **C1.** For every individual and every `N ≥ 0`, the integer-encoding
evaluation returns exactly the number of pairs `(i, j)` with
`0 ≤ i < j < N` such that `ind[i] = ind[j]` or `|i - j| = |ind[i] - ind[j]|`;
the value is non-negative, and it is `0` exactly when no violating pair
exists (so `0` is the unique optimum).  For the binary-packed encoding the
same pairwise count is taken over the decoded values `get_value`. -/
theorem violations_count_is_pair_count (ind : List Int) (bind : List Nat) (N bits : Nat) :
    IntegerSimple.get_violations_count ind N = pairCard (intViolation ind) N ∧
    BinarySimple.get_violations_count bind N bits = pairCard (binViolation bind N bits) N ∧
    0 ≤ IntegerSimple.get_violations_count ind N ∧
    0 ≤ BinarySimple.get_violations_count bind N bits ∧
    (IntegerSimple.get_violations_count ind N = 0 ↔
      ∀ i j : Nat, i < j → j < N → intViolation ind i j = false) ∧
    (BinarySimple.get_violations_count bind N bits = 0 ↔
      ∀ i j : Nat, i < j → j < N → binViolation bind N bits i j = false) := by
  have hint := loopCount_eq_pairCard (intViolation ind) N
  have hbin := loopCount_eq_pairCard (binViolation bind N bits) N
  refine ⟨hint, hbin, Nat.zero_le _, Nat.zero_le _, ?_, ?_⟩
  · rw [integer_count_eq_loopCount]
    exact loopCount_eq_zero_iff (intViolation ind) N
  · rw [binary_count_eq_loopCount]
    exact loopCount_eq_zero_iff (binViolation bind N bits) N

/-! ## Claims C2 and C10: the binary decode `get_value` -/

/-- The little-endian partial sum `∑_{i<e} ind[k+i] * 2^i` of the bit group
starting at `k`: the value of the Python variable `v` after `e` completed
loop iterations. -/
def bitsSum (ind : List Nat) (k e : Nat) : Nat :=
  ∑ i ∈ Finset.range e, ind.getD (k + i) 0 * 2 ^ i

theorem bitsSum_zero (ind : List Nat) (k : Nat) : bitsSum ind k 0 = 0 := by
  simp [bitsSum]

theorem bitsSum_succ (ind : List Nat) (k e : Nat) :
    bitsSum ind k (e + 1) = bitsSum ind k e + ind.getD (k + e) 0 * 2 ^ e := by
  simp [bitsSum, Finset.sum_range_succ]

theorem bitsSum_mono (ind : List Nat) (k : Nat) {e e' : Nat} (h : e ≤ e') :
    bitsSum ind k e ≤ bitsSum ind k e' := by
  exact Finset.sum_le_sum_of_subset (Finset.range_subset.2 h)

/-- Full characterisation of the decode loop: started at iteration `e` with
the correct partial sum below `queens_amount`, it stops at the first
iteration count `m` at which either all bits are consumed or the partial sum
reaches `queens_amount`. -/
theorem get_value_loop_char (ind : List Nat) (k N bits : Nat) :
    ∀ (fuel e v : Nat), bits - e ≤ fuel → v = bitsSum ind k e → v < N → e ≤ bits →
      ∃ m, e ≤ m ∧ m ≤ bits ∧
        BinarySimple.get_value_loop ind k N bits v e = (bitsSum ind k m, m) ∧
        (∀ m', e ≤ m' → m' < m → bitsSum ind k m' < N) ∧
        (m = bits ∨ N ≤ bitsSum ind k m)
  | 0, e, v, hfuel, hv, hvN, hebits => by
    have he : e = bits := by omega
    refine ⟨e, Nat.le_refl e, hebits, ?_, fun m' h1 h2 => absurd (h1.trans_lt h2) (by omega), Or.inl he⟩
    rw [BinarySimple.get_value_loop]
    have : ¬(e < bits ∧ v < N) := by omega
    rw [dif_neg this, hv]
  | fuel + 1, e, v, hfuel, hv, hvN, hebits => by
    by_cases h : e < bits
    · have hstep : BinarySimple.get_value_loop ind k N bits v e
          = BinarySimple.get_value_loop ind k N bits (v + ind.getD (k + e) 0 * 2 ^ e) (e + 1) := by
        rw [BinarySimple.get_value_loop]
        exact dif_pos ⟨h, hvN⟩
      have hv' : v + ind.getD (k + e) 0 * 2 ^ e = bitsSum ind k (e + 1) := by
        rw [hv, bitsSum_succ]
      by_cases h2 : bitsSum ind k (e + 1) < N
      · obtain ⟨m, hm1, hm2, hm3, hm4, hm5⟩ :=
          get_value_loop_char ind k N bits fuel (e + 1) (v + ind.getD (k + e) 0 * 2 ^ e)
            (by omega) hv' (by rw [hv']; exact h2) (by omega)
        refine ⟨m, by omega, hm2, hstep.trans hm3, ?_, hm5⟩
        intro m' h1' h2'
        rcases Nat.eq_or_lt_of_le h1' with rfl | hlt
        · exact hv ▸ hvN
        · exact hm4 m' hlt h2'
      · refine ⟨e + 1, by omega, by omega, ?_, ?_, Or.inr (by omega)⟩
        · rw [hstep, BinarySimple.get_value_loop]
          have : ¬(e + 1 < bits ∧ v + ind.getD (k + e) 0 * 2 ^ e < N) := by omega
          rw [dif_neg this, hv']
        · intro m' h1' h2'
          have : m' = e := by omega
          subst this
          exact hv ▸ hvN
    · have he : e = bits := by omega
      refine ⟨e, Nat.le_refl e, hebits, ?_, fun m' h1 h2 => absurd (h1.trans_lt h2) (by omega), Or.inl he⟩
      rw [BinarySimple.get_value_loop]
      have : ¬(e < bits ∧ v < N) := by omega
      rw [dif_neg this, hv]

/-- The value computed by `get_value` is a truncated little-endian
accumulation: it equals the partial sum after `m` bits, for the largest `m`
at which the partial sum is still below `queens_amount` (all bits, when the
full sum stays in range). -/
theorem get_value_spec (ind : List Nat) (pos N bits : Nat) (hN : 1 ≤ N) :
    ∃ m, m ≤ bits ∧ BinarySimple.get_value ind pos N bits = bitsSum ind (pos * bits) m ∧
      bitsSum ind (pos * bits) m < N ∧
      (m = bits ∨ N ≤ bitsSum ind (pos * bits) (m + 1)) := by
  obtain ⟨m, hm1, hm2, hm3, hm4, hm5⟩ :=
    get_value_loop_char ind (pos * bits) N bits bits 0 0 (by omega)
      (by rw [bitsSum_zero]) (by omega) (Nat.zero_le bits)
  simp only [BinarySimple.get_value]
  rw [hm3]
  by_cases hout : N ≤ bitsSum ind (pos * bits) m
  · rw [if_pos hout]
    have hmpos : 1 ≤ m := by
      by_contra hcon
      have : m = 0 := by omega
      subst this
      rw [bitsSum_zero] at hout
      omega
    obtain ⟨m', rfl⟩ : ∃ m', m = m' + 1 := ⟨m - 1, by omega⟩
    have hsub : bitsSum ind (pos * bits) (m' + 1)
        - ind.getD (pos * bits + (m' + 1) - 1) 0 * 2 ^ (m' + 1 - 1)
        = bitsSum ind (pos * bits) m' := by
      rw [bitsSum_succ]
      simp
    refine ⟨m', by omega, hsub, hm4 m' (Nat.zero_le m') (Nat.lt_succ_self m'), Or.inr (by omega)⟩
  · rw [if_neg hout]
    refine ⟨m, hm2, rfl, by omega, ?_⟩
    rcases hm5 with h | h
    · exact Or.inl h
    · omega

/-- **C2.** For `N ≥ 1`, `bits_amount = ceil(log2 N)`, a 0/1 bit genome long
enough for row `pos`, `get_value` computes the little-endian accumulation of
the row's bit group, truncated as soon as the running value reaches
`queens_amount` (the last added summand is then removed), and the result
always lies in `[0, N-1]`.  (The function is deterministic and pure by
construction: it is a Lean function of its arguments.) -/
theorem get_value_truncated_accumulation (ind : List Nat) (pos N bits : Nat)
    (hN : 1 ≤ N) (hbits : bits = Nat.clog 2 N)
    (hbin : ∀ b ∈ ind, b = 0 ∨ b = 1)
    (hlen : (pos + 1) * bits ≤ ind.length) :
    BinarySimple.get_value ind pos N bits < N ∧
    (∃ m, m ≤ bits ∧ BinarySimple.get_value ind pos N bits = bitsSum ind (pos * bits) m ∧
      bitsSum ind (pos * bits) m < N ∧
      (m = bits ∨ N ≤ bitsSum ind (pos * bits) (m + 1))) ∧
    (bitsSum ind (pos * bits) bits < N →
      BinarySimple.get_value ind pos N bits = bitsSum ind (pos * bits) bits) := by
  obtain ⟨m, hm1, hm2, hm3, hm4⟩ := get_value_spec ind pos N bits hN
  refine ⟨by rw [hm2]; exact hm3, ⟨m, hm1, hm2, hm3, hm4⟩, ?_⟩
  intro hfull
  by_cases hmb : m = bits
  · rw [hm2, hmb]
  · exfalso
    rcases hm4 with h | hge
    · exact hmb h
    · have : bitsSum ind (pos * bits) (m + 1) ≤ bitsSum ind (pos * bits) bits :=
        bitsSum_mono ind (pos * bits) (by omega)
      omega

/-- Witness for C2 at the concrete genome `[1, 1]`, `pos = 0`, `N = 3`,
`bits_amount = 2` (the decode stops early: `1 + 2 ≥ 3`, unwinds to `1`). -/
theorem get_value_truncated_accumulation_witness :
    BinarySimple.get_value [1, 1] 0 3 2 < 3 ∧
    (∃ m, m ≤ 2 ∧ BinarySimple.get_value [1, 1] 0 3 2 = bitsSum [1, 1] (0 * 2) m ∧
      bitsSum [1, 1] (0 * 2) m < 3 ∧
      (m = 2 ∨ 3 ≤ bitsSum [1, 1] (0 * 2) (m + 1))) ∧
    (bitsSum [1, 1] (0 * 2) 2 < 3 →
      BinarySimple.get_value [1, 1] 0 3 2 = bitsSum [1, 1] (0 * 2) 2) :=
  get_value_truncated_accumulation [1, 1] 0 3 2 (by decide)
    (by
      have h1 : Nat.clog 2 3 ≤ 2 := (Nat.le_pow_iff_clog_le (by norm_num)).1 (by norm_num)
      have h2 : ¬Nat.clog 2 3 ≤ 1 := fun h => by
        have h3 := (Nat.le_pow_iff_clog_le (by norm_num)).2 h
        norm_num at h3
      omega)
    (by decide) (by decide)

/-- Python sequence indexing `l[i]` as a partial function: a negative index
wraps once from the end (`l[-1]` is the last element); any index still out
of range raises `IndexError`, modelled as `none`. -/
def pyGet (l : List Nat) (i : Int) : Option Nat :=
  let j : Int := if i < 0 then (l.length : Int) + i else i
  if 0 ≤ j ∧ j < (l.length : Int) then some (l.getD j.toNat 0) else none

/-- Instrumented, total embedding of the `get_value` loop: indexing goes
through `pyGet` (so an out-of-range access yields `none`) and the list of
all accessed indices is recorded in `acc`. -/
def get_value_loopA (ind : List Nat) (k N bits v e : Nat) (acc : List Int) :
    Option (Nat × Nat × List Int) :=
  if h : e < bits ∧ v < N then
    match pyGet ind ((k : Int) + e) with
    | some b => get_value_loopA ind k N bits (v + b * 2 ^ e) (e + 1) (acc ++ [(k : Int) + e])
    | none => none
  else
    some (v, e, acc)
termination_by bits - e
decreasing_by omega

/-- Instrumented, total embedding of `get_value`: the decoded value together
with every index the Python code reads, `none` if any read is out of range.
The unwind branch reads the Python index `k + e - 1` (an `Int`: for `e = 0`,
`k = 0` this is `-1`). -/
def get_valueA (ind : List Nat) (pos N bits : Nat) : Option (Nat × List Int) :=
  let k := pos * bits
  match get_value_loopA ind k N bits 0 0 [] with
  | none => none
  | some (v, e, acc) =>
    if N ≤ v then
      match pyGet ind ((k : Int) + e - 1) with
      | some b => some (v - b * 2 ^ (e - 1), acc ++ [(k : Int) + e - 1])
      | none => none
    else
      some (v, acc)

theorem pyGet_in_range (l : List Nat) (i : Nat) (h : i < l.length) :
    pyGet l i = some (l.getD i 0) := by
  unfold pyGet
  have h0 : ¬((i : Int) < 0) := by omega
  rw [if_neg h0]
  have h1 : (0 : Int) ≤ (i : Int) ∧ (i : Int) < (l.length : Int) := by
    constructor <;> omega
  rw [if_pos h1]
  simp

/-- The instrumented loop agrees with the plain loop whenever the whole bit
group `[k, k + bits)` is inside the genome, every access succeeds, and every
recorded access lies in the bit group at or after the starting iteration. -/
theorem get_value_loopA_eq (ind : List Nat) (k N bits : Nat)
    (hlen : k + bits ≤ ind.length) :
    ∀ (fuel e v : Nat) (acc : List Int), bits - e ≤ fuel →
      ∃ ixs, get_value_loopA ind k N bits v e acc
          = some ((BinarySimple.get_value_loop ind k N bits v e).1,
              (BinarySimple.get_value_loop ind k N bits v e).2, acc ++ ixs) ∧
        ∀ ix ∈ ixs, ∃ m : Nat, e ≤ m ∧ m < bits ∧ ix = (k : Int) + m
  | 0, e, v, acc, hfuel => by
    have hcond : ¬(e < bits ∧ v < N) := by omega
    refine ⟨[], ?_, by simp⟩
    rw [get_value_loopA, dif_neg hcond, BinarySimple.get_value_loop, dif_neg hcond]
    simp
  | fuel + 1, e, v, acc, hfuel => by
    by_cases hcond : e < bits ∧ v < N
    · have hix : k + e < ind.length := by omega
      have hget := pyGet_in_range ind (k + e) hix
      have hcast : ((k + e : Nat) : Int) = (k : Int) + e := by push_cast; ring
      obtain ⟨ixs, hrec, hmem⟩ :=
        get_value_loopA_eq ind k N bits hlen fuel (e + 1)
          (v + ind.getD (k + e) 0 * 2 ^ e) (acc ++ [(k : Int) + e]) (by omega)
      have hunfold : BinarySimple.get_value_loop ind k N bits v e
          = BinarySimple.get_value_loop ind k N bits
              (v + ind.getD (k + e) 0 * 2 ^ e) (e + 1) := by
        rw [BinarySimple.get_value_loop]
        exact dif_pos hcond
      refine ⟨((k : Int) + e) :: ixs, ?_, ?_⟩
      · rw [get_value_loopA, dif_pos hcond, ← hcast, hget]
        simp only [hcast]
        rw [hrec, hunfold]
        simp
      · intro ix hixmem
        rcases List.mem_cons.1 hixmem with rfl | htail
        · exact ⟨e, Nat.le_refl e, hcond.1, rfl⟩
        · obtain ⟨m, hm1, hm2, hm3⟩ := hmem ix htail
          exact ⟨m, by omega, hm2, hm3⟩
    · refine ⟨[], ?_, by simp⟩
      rw [get_value_loopA, dif_neg hcond, BinarySimple.get_value_loop, dif_neg hcond]
      simp

/-- **C10.** Index safety of the binary decode: for `N ≥ 1`,
`bits_amount = ceil(log2 N)`, a genome of length at least `N * bits_amount`
and a row `pos < N`, the instrumented Python-indexing model of `get_value`
never fails, agrees with the plain model, and every index it reads lies in
the bit group `[pos*bits_amount, (pos+1)*bits_amount)`; in particular the
unwind branch never executes with `e = 0`, so its read is in range. -/
theorem get_value_index_safety (ind : List Nat) (N pos bits : Nat)
    (hN : 1 ≤ N) (hbits : bits = Nat.clog 2 N)
    (hlen : N * bits ≤ ind.length) (hpos : pos < N) :
    ∃ v ixs, get_valueA ind pos N bits = some (v, ixs) ∧
      v = BinarySimple.get_value ind pos N bits ∧
      ∀ ix ∈ ixs, ((pos * bits : Nat) : Int) ≤ ix ∧ ix < (((pos + 1) * bits : Nat) : Int) := by
  have hmul : (pos + 1) * bits ≤ N * bits := Nat.mul_le_mul_right bits hpos
  have hkb : pos * bits + bits ≤ ind.length := by
    have : pos * bits + bits = (pos + 1) * bits := by ring
    omega
  obtain ⟨ixs, hloop, hmem⟩ :=
    get_value_loopA_eq ind (pos * bits) N bits hkb bits 0 0 [] (by omega)
  obtain ⟨m, hm1, hm2, hm3, hm4, hm5⟩ :=
    get_value_loop_char ind (pos * bits) N bits bits 0 0 (by omega)
      (by rw [bitsSum_zero]) (by omega) (Nat.zero_le bits)
  have hval : BinarySimple.get_value ind pos N bits
      = if N ≤ bitsSum ind (pos * bits) m then
          bitsSum ind (pos * bits) m - ind.getD (pos * bits + m - 1) 0 * 2 ^ (m - 1)
        else bitsSum ind (pos * bits) m := by
    simp only [BinarySimple.get_value]
    rw [hm3]
  rw [hm3] at hloop
  have hsucc : (pos + 1) * bits = pos * bits + bits := by ring
  have hmembound : ∀ ix ∈ ixs,
      ((pos * bits : Nat) : Int) ≤ ix ∧ ix < (((pos + 1) * bits : Nat) : Int) := by
    intro ix hix
    obtain ⟨m', _, hm'2, rfl⟩ := hmem ix hix
    omega
  simp only [get_valueA]
  rw [hloop]
  by_cases hout : N ≤ bitsSum ind (pos * bits) m
  · have hmpos : 1 ≤ m := by
      by_contra hcon
      have hz : m = 0 := by omega
      rw [hz, bitsSum_zero] at hout
      omega
    have hixlt : pos * bits + m - 1 < ind.length := by omega
    have hcast : ((pos * bits + m - 1 : Nat) : Int) = ((pos * bits : Nat) : Int) + m - 1 := by
      omega
    have hget := pyGet_in_range ind (pos * bits + m - 1) hixlt
    rw [hcast] at hget
    simp only [if_pos hout, hget]
    refine ⟨_, _, rfl, ?_, ?_⟩
    · rw [hval, if_pos hout]
    · intro ix hix
      rcases List.mem_append.1 hix with h | h
      · exact hmembound ix h
      · have hix1 : ix = ((pos * bits : Nat) : Int) + (m : Int) - 1 := List.mem_singleton.1 h
        subst hix1
        omega
  · simp only [if_neg hout]
    refine ⟨_, _, rfl, ?_, ?_⟩
    · rw [hval, if_neg hout]
    · intro ix hix
      exact hmembound ix (by simpa using hix)


/-- Witness for C10 at the genome `[1, 1, 0, 1]`, `N = 2`, `bits_amount = 1`. -/
theorem get_value_index_safety_witness :
    ∃ v ixs, get_valueA [1, 1, 0, 1] 1 2 1 = some (v, ixs) ∧
      v = BinarySimple.get_value [1, 1, 0, 1] 1 2 1 ∧
      ∀ ix ∈ ixs, ((1 * 1 : Nat) : Int) ≤ ix ∧ ix < (((1 + 1) * 1 : Nat) : Int) :=
  get_value_index_safety [1, 1, 0, 1] 2 1 1 (by decide)
    (by
      have h1 : Nat.clog 2 2 ≤ 1 := (Nat.le_pow_iff_clog_le (by norm_num)).1 (by norm_num)
      have h2 : ¬Nat.clog 2 2 ≤ 0 := fun h => by
        have h3 := (Nat.le_pow_iff_clog_le (by norm_num)).2 h
        norm_num at h3
      omega)
    (by decide) (by decide)

/-! ## Claims C5 and C6: evaluation on permutation genomes -/

/-- The diagonal-only violation condition of the optimized encoding. -/
def optViolation (ind : List Int) (i j : Nat) : Bool :=
  ((i : Int) - (j : Int)).natAbs == (ind.getD i 0 - ind.getD j 0).natAbs

theorem optimized_count_eq_loopCount (ind : List Int) (N : Nat) :
    Optimized.get_violations_count ind N = loopCount (optViolation ind) N := rfl

/-- The canonical permutation target: the genome values `0, 1, ..., N-1`. -/
def rangeGenome (N : Nat) : List Int :=
  (List.range N).map Int.ofNat

theorem perm_length (ind : List Int) (N : Nat) (hperm : ind.Perm (rangeGenome N)) :
    ind.length = N := by
  rw [hperm.length_eq]
  simp [rangeGenome]


theorem perm_nodup (ind : List Int) (N : Nat) (hperm : ind.Perm (rangeGenome N)) :
    ind.Nodup := by
  refine hperm.nodup_iff.2 ?_
  exact (List.nodup_range N).map fun a b hab => Int.ofNat.inj hab

theorem perm_getD_ne (ind : List Int) (N : Nat) (hperm : ind.Perm (rangeGenome N))
    {i j : Nat} (hi : i < N) (hj : j < N) (hne : i ≠ j) :
    ind.getD i 0 ≠ ind.getD j 0 := by
  have hlen : ind.length = N := perm_length ind N hperm
  have hnd : ind.Nodup := perm_nodup ind N hperm
  have hi2 : i < ind.length := by omega
  have hj2 : j < ind.length := by omega
  have hgi : ind.getD i 0 = ind[i] := ind.getD_eq_getElem 0 hi2
  have hgj : ind.getD j 0 = ind[j] := ind.getD_eq_getElem 0 hj2
  rw [hgi, hgj]
  intro hcon
  exact hne (hnd.getElem_inj_iff.1 hcon)

/-- The generic pair count is at most the number of pairs, `N*(N-1)/2`. -/
theorem loopCount_le_pairs (p : Nat → Nat → Bool) (N : Nat) :
    loopCount p N ≤ N * (N - 1) / 2 := by
  unfold loopCount
  rw [sum_map_range]
  calc
    ∑ i ∈ Finset.range N, ((List.range' (i + 1) (N - (i + 1))).countP fun j => p i j)
        ≤ ∑ i ∈ Finset.range N, (N - (i + 1)) := by
          refine Finset.sum_le_sum fun i _ => ?_
          have h1 := List.countP_le_length (l := List.range' (i + 1) (N - (i + 1)))
            (p := fun j => p i j)
          simpa using h1
    _ = ∑ i ∈ Finset.range N, (N - 1 - i) := by
          refine Finset.sum_congr rfl fun i _ => ?_
          omega
    _ = ∑ i ∈ Finset.range N, i := Finset.sum_range_reflect (fun i => i) N
    _ = N * (N - 1) / 2 := Finset.sum_range_id N

/-- **C5.** On a valid permutation of `[0, N-1]` the integer variant's full
evaluation (same column or same diagonal) and the optimized variant's
diagonal-only evaluation coincide: a permutation never repeats a column. -/
theorem optimized_eval_agrees_with_integer_eval (ind : List Int) (N : Nat)
    (hperm : ind.Perm (rangeGenome N)) :
    IntegerSimple.get_violations_count ind N = Optimized.get_violations_count ind N := by
  unfold IntegerSimple.get_violations_count Optimized.get_violations_count
  congr 1
  apply List.map_congr_left
  intro i hi
  apply List.countP_congr
  intro j hj
  rw [List.mem_range] at hi
  rw [List.mem_range'_1] at hj
  have hne : ind.getD i 0 ≠ ind.getD j 0 :=
    perm_getD_ne ind N hperm hi (by omega) (by omega)
  have hfalse : (ind.getD i 0 == ind.getD j 0) = false := beq_eq_false_iff_ne.2 hne
  have hEq : (ind.getD i 0 == ind.getD j 0 ||
      ((i : Int) - (j : Int)).natAbs == (ind.getD i 0 - ind.getD j 0).natAbs)
    = (((i : Int) - (j : Int)).natAbs == (ind.getD i 0 - ind.getD j 0).natAbs) := by
    rw [hfalse, Bool.false_or]
  rw [hEq]

/-- Witness for C5 at the solution permutation `[1, 3, 0, 2]`, `N = 4`. -/
theorem optimized_eval_agrees_with_integer_eval_witness :
    IntegerSimple.get_violations_count [1, 3, 0, 2] 4
      = Optimized.get_violations_count [1, 3, 0, 2] 4 :=
  optimized_eval_agrees_with_integer_eval [1, 3, 0, 2] 4 (by decide)

/-- A valid N-Queens solution: no two queens share a column or a diagonal
(rows are distinct by construction of the encoding). -/
def isSolution (ind : List Int) (N : Nat) : Prop :=
  ∀ i j : Nat, i < j → j < N →
    ind.getD i 0 ≠ ind.getD j 0 ∧
    ((i : Int) - (j : Int)).natAbs ≠ (ind.getD i 0 - ind.getD j 0).natAbs

/-- **C6.** For `N ≥ 4` and a permutation genome, the optimized fitness lies
in `[0, N*(N-1)/2]` and is `0` exactly when the genome is a valid N-Queens
solution. -/
theorem optimized_fitness_bounds (ind : List Int) (N : Nat)
    (hN : 4 ≤ N) (hperm : ind.Perm (rangeGenome N)) :
    Optimized.get_violations_count ind N ≤ N * (N - 1) / 2 ∧
    (Optimized.get_violations_count ind N = 0 ↔ isSolution ind N) := by
  constructor
  · rw [optimized_count_eq_loopCount]
    exact loopCount_le_pairs (optViolation ind) N
  · rw [optimized_count_eq_loopCount, loopCount_eq_zero_iff]
    constructor
    · intro h i j hij hjN
      refine ⟨perm_getD_ne ind N hperm (by omega) (by omega) (by omega), ?_⟩
      have hd := h i j hij hjN
      unfold optViolation at hd
      simpa using hd
    · intro h i j hij hjN
      have hd := (h i j hij hjN).2
      unfold optViolation
      simpa using hd

/-- Witness for C6 at the solution permutation `[1, 3, 0, 2]`, `N = 4`. -/
theorem optimized_fitness_bounds_witness :
    Optimized.get_violations_count [1, 3, 0, 2] 4 ≤ 4 * (4 - 1) / 2 ∧
    (Optimized.get_violations_count [1, 3, 0, 2] 4 = 0 ↔ isSolution [1, 3, 0, 2] 4) :=
  optimized_fitness_bounds [1, 3, 0, 2] 4 (by decide) (by decide)

/-! ## Claim C4: the elitist engine keeps the recorded minimum non-increasing

The engine `eaSimpleWithElitism` is imported from the repository module
`algorithms`, whose source is not part of `src/`; the engine is therefore
modelled from the specification (§3 "Elite Set", §4.3 "Evolution Engine").
Individuals are abstract (`α`) with a fitness function `f : α → Nat`; the
offspring produced by selection/variation in each generation are an
arbitrary input (this subsumes every random seed). -/

/-- Minimum of a list of fitness values (`numpy.min` over the population),
`0` on the empty list. -/
def listMin : List Nat → Nat
  | [] => 0
  | [x] => x
  | x :: y :: xs => min x (listMin (y :: xs))

theorem listMin_le_of_mem : ∀ {l : List Nat} {a : Nat}, a ∈ l → listMin l ≤ a
  | [], a, h => absurd h (List.not_mem_nil a)
  | [x], a, h => by
    rcases List.mem_singleton.1 h with rfl
    exact Nat.le_refl a
  | x :: y :: xs, a, h => by
    rcases List.mem_cons.1 h with rfl | h2
    · exact Nat.min_le_left _ _
    · exact Nat.le_trans (Nat.min_le_right _ _) (listMin_le_of_mem h2)

theorem listMin_mem : ∀ {l : List Nat}, l ≠ [] → listMin l ∈ l
  | [], h => absurd rfl h
  | [x], _ => by simp [listMin]
  | x :: y :: xs, _ => by
    show min x (listMin (y :: xs)) ∈ x :: y :: xs
    rcases Nat.le_total x (listMin (y :: xs)) with h | h
    · rw [Nat.min_eq_left h]
      exact List.mem_cons_self x (y :: xs)
    · rw [Nat.min_eq_right h]
      exact List.mem_cons_of_mem x (listMin_mem (List.cons_ne_nil y xs))

theorem le_listMin {l : List Nat} {b : Nat} (hne : l ≠ []) (h : ∀ a ∈ l, b ≤ a) :
    b ≤ listMin l :=
  h (listMin l) (listMin_mem hne)

theorem listMin_perm {l l' : List Nat} (h : l.Perm l') : listMin l = listMin l' := by
  rcases Decidable.em (l = []) with rfl | hne
  · rw [h.symm.eq_nil]
  · have hne' : l' ≠ [] := fun hl => hne ((hl ▸ h).eq_nil)
    exact Nat.le_antisymm
      (listMin_le_of_mem (h.mem_iff.2 (listMin_mem hne')))
      (listMin_le_of_mem (h.symm.mem_iff.2 (listMin_mem hne)))

theorem listMin_sorted_cons {x : Nat} {xs : List Nat} (h : ∀ a ∈ xs, x ≤ a) :
    listMin (x :: xs) = x :=
  Nat.le_antisymm (listMin_le_of_mem (List.mem_cons_self x xs))
    (le_listMin (List.cons_ne_nil x xs) fun a ha => by
      rcases List.mem_cons.1 ha with rfl | ha2
      · exact Nat.le_refl _
      · exact h a ha2)

theorem listMin_append_right {l₁ l₂ : List Nat} (hne : l₂ ≠ []) :
    listMin (l₁ ++ l₂) ≤ listMin l₂ :=
  listMin_le_of_mem (List.mem_append_right l₁ (listMin_mem hne))

/-- Comparison of individuals by fitness (minimisation). -/
def fitRel {α : Type} (f : α → Nat) : α → α → Prop := fun a b => f a ≤ f b

instance fitRelDec {α : Type} (f : α → Nat) : DecidableRel (fitRel f) :=
  fun a b => Nat.decLe (f a) (f b)

/-- Modelled from the spec: the Elite Set / `HallOfFame` update (§3 "Elite
Set": "the top-K genomes (by fitness, ties broken by insertion/discovery
order) ever observed").  The current elites followed by the evaluated
population are stably sorted by fitness and the best `K` are kept, so ties
keep the earlier-recorded elite. -/
def hofUpdate {α : Type} (f : α → Nat) (K : Nat) (hof pop : List α) : List α :=
  ((hof ++ pop).insertionSort (fitRel f)).take K

/-- Modelled from the spec (§4.3, steps 1–5): in each generation the varied
offspring `off` (produced by selection, crossover and mutation — an
arbitrary input here, which subsumes every random seed) is extended with the
current elites to form the new population; the elite set is refreshed from
it; the population's minimum fitness is recorded. -/
def engineMins {α : Type} (f : α → Nat) (K : Nat) : List α → List (List α) → List Nat
  | _, [] => []
  | hof, off :: rest =>
    listMin ((off ++ hof).map f) ::
      engineMins f K (hofUpdate f K hof (off ++ hof)) rest

/-- Modelled from the spec (§4.3): a full elitist run records the initial
population's minimum fitness (generation 0), seeds the elite set from the
initial population, and then iterates `engineMins` over the per-generation
offspring. -/
def engineRunMins {α : Type} (f : α → Nat) (K : Nat) (init : List α)
    (offs : List (List α)) : List Nat :=
  listMin (init.map f) :: engineMins f K (hofUpdate f K [] init) offs

theorem hofUpdate_ne_nil {α : Type} (f : α → Nat) (K : Nat) (hof pop : List α)
    (hK : 1 ≤ K) (hne : hof ++ pop ≠ []) : hofUpdate f K hof pop ≠ [] := by
  unfold hofUpdate
  intro hcon
  have hlen := congrArg List.length hcon
  rw [List.length_take, List.length_nil,
    (List.perm_insertionSort (fitRel f) (hof ++ pop)).length_eq] at hlen
  have : (hof ++ pop).length ≠ 0 := fun h => hne (List.length_eq_zero.1 h)
  omega

/-- The minimum fitness of the updated elite set is the minimum fitness of
everything it was built from: sorting puts a global minimum first and
`take K` keeps it for `K ≥ 1`. -/
theorem listMin_map_hofUpdate {α : Type} (f : α → Nat) (K : Nat) (hof pop : List α)
    (hK : 1 ≤ K) (hne : hof ++ pop ≠ []) :
    listMin ((hofUpdate f K hof pop).map f) = listMin ((hof ++ pop).map f) := by
  haveI : IsTotal α (fitRel f) := ⟨fun a b => Nat.le_total (f a) (f b)⟩
  haveI : IsTrans α (fitRel f) := ⟨fun a b c hab hbc => Nat.le_trans hab hbc⟩
  have hsort : List.Sorted (fitRel f) ((hof ++ pop).insertionSort (fitRel f)) :=
    List.sorted_insertionSort (fitRel f) (hof ++ pop)
  have hperm : ((hof ++ pop).insertionSort (fitRel f)).Perm (hof ++ pop) :=
    List.perm_insertionSort (fitRel f) (hof ++ pop)
  have hne' : (hof ++ pop).insertionSort (fitRel f) ≠ [] := fun h => by
    rw [h] at hperm
    exact hne hperm.symm.eq_nil
  obtain ⟨x, xs, hx⟩ := List.exists_cons_of_ne_nil hne'
  have hmapperm : (((hof ++ pop).insertionSort (fitRel f)).map f).Perm ((hof ++ pop).map f) :=
    hperm.map f
  rw [hofUpdate, List.map_take, ← listMin_perm hmapperm, hx]
  obtain ⟨K', rfl⟩ : ∃ K', K = K' + 1 := ⟨K - 1, by omega⟩
  rw [List.map_cons, List.take_succ_cons]
  have hsorted_map : List.Sorted (· ≤ ·) ((x :: xs).map f) := by
    rw [← hx]
    exact List.Pairwise.map f (fun a b hab => hab) hsort
  rw [List.map_cons] at hsorted_map
  have hhead : ∀ a ∈ xs.map f, f x ≤ a := fun a ha => List.rel_of_sorted_cons hsorted_map a ha
  rw [listMin_sorted_cons fun a ha => hhead a (List.take_subset K' (xs.map f) ha),
    listMin_sorted_cons hhead]

/-- Core inductive argument: with at least one elite, every recorded minimum
is bounded by the elite set's minimum fitness at the start of the
generation, and the recorded minima never increase. -/
theorem engineMins_chain {α : Type} (f : α → Nat) (K : Nat) (hK : 1 ≤ K) :
    ∀ (offs : List (List α)) (hof : List α), hof ≠ [] →
      (∀ m, (engineMins f K hof offs).head? = some m → m ≤ listMin (hof.map f)) ∧
      List.Chain' (fun a b => b ≤ a) (engineMins f K hof offs)
  | [], hof, hne => ⟨fun m hm => by simp [engineMins] at hm, by simp [engineMins]⟩
  | off :: rest, hof, hne => by
    have hpopne : off ++ hof ≠ [] := fun h => hne (List.append_eq_nil.1 h).2
    have hpopne2 : hof ++ (off ++ hof) ≠ [] := fun h => hne (List.append_eq_nil.1 h).1
    have hmapne : hof.map f ≠ [] := fun h => hne (List.map_eq_nil_iff.1 h)
    have hmapne2 : (off ++ hof).map f ≠ [] := fun h => hpopne (List.map_eq_nil_iff.1 h)
    have hhofne' : hofUpdate f K hof (off ++ hof) ≠ [] :=
      hofUpdate_ne_nil f K hof (off ++ hof) hK hpopne2
    obtain ⟨hhead, hchain⟩ := engineMins_chain f K hK rest (hofUpdate f K hof (off ++ hof)) hhofne'
    have hminupd : listMin ((hofUpdate f K hof (off ++ hof)).map f)
        = listMin ((hof ++ (off ++ hof)).map f) :=
      listMin_map_hofUpdate f K hof (off ++ hof) hK hpopne2
    have hstep : listMin ((hofUpdate f K hof (off ++ hof)).map f)
        ≤ listMin ((off ++ hof).map f) := by
      rw [hminupd, List.map_append]
      exact listMin_append_right hmapne2
    constructor
    · intro m hm
      simp only [engineMins, List.head?_cons, Option.some.injEq] at hm
      subst hm
      rw [List.map_append]
      exact listMin_append_right hmapne
    · show List.Chain' (fun a b => b ≤ a)
        (listMin ((off ++ hof).map f) :: engineMins f K (hofUpdate f K hof (off ++ hof)) rest)
      rw [List.chain'_cons']
      refine ⟨fun m hm => ?_, hchain⟩
      have hm' : (engineMins f K (hofUpdate f K hof (off ++ hof)) rest).head? = some m := by
        simpa using hm
      exact Nat.le_trans (hhead m hm') hstep

/-- **C4.** Modelled from the spec: for the optimized variant run with the
size-30 elite set, the per-generation minimum population fitness recorded in
the Logbook is non-increasing across the whole run, for every initial
population and every sequence of per-generation offspring (hence for any
fixed random seed). -/
theorem optimized_elitist_min_fitness_monotone (queens : Nat)
    (init : List (List Int)) (offs : List (List (List Int))) (hinit : init ≠ []) :
    List.Chain' (fun a b => b ≤ a)
      (engineRunMins (fun g => Optimized.get_violations_count g queens) 30 init offs) := by
  set f : List Int → Nat := fun g => Optimized.get_violations_count g queens with hf
  have hinitne : ([] : List (List Int)) ++ init ≠ [] := by simpa using hinit
  have hhofne : hofUpdate f 30 [] init ≠ [] :=
    hofUpdate_ne_nil f 30 [] init (by omega) hinitne
  obtain ⟨hhead, hchain⟩ := engineMins_chain f 30 (by omega) offs (hofUpdate f 30 [] init) hhofne
  unfold engineRunMins
  rw [List.chain'_cons']
  refine ⟨fun m hm => ?_, hchain⟩
  have hminupd : listMin ((hofUpdate f 30 [] init).map f) = listMin ((([] : List (List Int)) ++ init).map f) :=
    listMin_map_hofUpdate f 30 [] init (by omega) hinitne
  have := hhead m hm
  rw [hminupd] at this
  simpa using this

/-- Witness for C4: a two-generation run at `N = 4` with a one-individual
initial population. -/
theorem optimized_elitist_min_fitness_monotone_witness :
    List.Chain' (fun a b => b ≤ a)
      (engineRunMins (fun g => Optimized.get_violations_count g 4) 30
        [[0, 1, 2, 3]] [[[3, 1, 0, 2]], [[1, 3, 0, 2]]]) :=
  optimized_elitist_min_fitness_monotone 4 [[0, 1, 2, 3]]
    [[[3, 1, 0, 2]], [[1, 3, 0, 2]]] (by decide)

/-! ## Claim C7: boundary behaviour at small board sizes -/

theorem loopCount_of_le_one (p : Nat → Nat → Bool) {N : Nat} (hN : N ≤ 1) :
    loopCount p N = 0 := by
  match N, hN with
  | 0, _ => rfl
  | 1, _ => rfl

theorem engineMins_length {α : Type} (f : α → Nat) (K : Nat) :
    ∀ (offs : List (List α)) (hof : List α), (engineMins f K hof offs).length = offs.length
  | [], _ => rfl
  | off :: rest, hof => by
    show (listMin ((off ++ hof).map f) ::
      engineMins f K (hofUpdate f K hof (off ++ hof)) rest).length = rest.length + 1
    rw [List.length_cons, engineMins_length f K rest]

theorem hofUpdate_mem {α : Type} {f : α → Nat} {K : Nat} {hof pop : List α} {x : α}
    (hx : x ∈ hofUpdate f K hof pop) : x ∈ hof ++ pop :=
  (List.perm_insertionSort (fitRel f) (hof ++ pop)).mem_iff.1
    (List.take_subset K _ hx)

theorem listMin_pos {l : List Nat} (hne : l ≠ []) (h : ∀ a ∈ l, 0 < a) :
    0 < listMin l :=
  h (listMin l) (listMin_mem hne)

/-- If every individual ever entering the engine satisfies `P` and `P`
forces positive fitness, every recorded minimum is positive. -/
theorem engineMins_pos {α : Type} (f : α → Nat) (K : Nat) (P : α → Prop)
    (hP : ∀ a, P a → 0 < f a) (hK : 1 ≤ K) :
    ∀ (offs : List (List α)) (hof : List α), hof ≠ [] → (∀ g ∈ hof, P g) →
      (∀ o ∈ offs, ∀ g ∈ o, P g) →
      ∀ m ∈ engineMins f K hof offs, 0 < m
  | [], _, _, _, _ => by simp [engineMins]
  | off :: rest, hof, hne, hhof, hoffs => by
    intro m hm
    have hpop : ∀ g ∈ off ++ hof, P g := by
      intro g hg
      rcases List.mem_append.1 hg with hg | hg
      · exact hoffs off (List.mem_cons_self off rest) g hg
      · exact hhof g hg
    rcases List.mem_cons.1 hm with rfl | hm2
    · refine listMin_pos (fun h => hne ?_) ?_
      · rcases List.map_eq_nil_iff.1 h with h2
        exact (List.append_eq_nil.1 h2).2
      · intro a ha
        obtain ⟨g, hg, rfl⟩ := List.mem_map.1 ha
        exact hP g (hpop g hg)
    · have hne2 : hof ++ (off ++ hof) ≠ [] := fun h => hne (List.append_eq_nil.1 h).1
      refine engineMins_pos f K P hP hK rest (hofUpdate f K hof (off ++ hof))
        (hofUpdate_ne_nil f K hof (off ++ hof) hK hne2) ?_
        (fun o ho => hoffs o (List.mem_cons_of_mem off ho)) m hm2
      intro g hg
      rcases List.mem_append.1 (hofUpdate_mem hg) with hg2 | hg2
      · exact hhof g hg2
      · exact hpop g hg2

/-- **C7.** Boundary behaviour at small `N`: for `N ≤ 1` all three
evaluation functions return `0` for every individual (no queen pair
exists); for `N = 2` and `N = 3` every permutation of `[0, N-1]` has
strictly positive fitness; and the (spec-modelled) elitist engine still
terminates normally on such boards, producing one record per generation,
all with the best achievable — strictly positive — fitness, instead of
raising an error. -/
theorem small_board_boundary_behaviour :
    (∀ (ind : List Int) (N : Nat), N ≤ 1 → IntegerSimple.get_violations_count ind N = 0) ∧
    (∀ (ind : List Nat) (N bits : Nat), N ≤ 1 → BinarySimple.get_violations_count ind N bits = 0) ∧
    (∀ (ind : List Int) (N : Nat), N ≤ 1 → Optimized.get_violations_count ind N = 0) ∧
    (∀ ind : List Int, ind.Perm (rangeGenome 2) → 0 < Optimized.get_violations_count ind 2) ∧
    (∀ ind : List Int, ind.Perm (rangeGenome 3) → 0 < Optimized.get_violations_count ind 3) ∧
    (∀ (N : Nat) (init : List (List Int)) (offs : List (List (List Int))),
      (N = 2 ∨ N = 3) → init ≠ [] →
      (∀ g ∈ init, g.Perm (rangeGenome N)) →
      (∀ o ∈ offs, ∀ g ∈ o, g.Perm (rangeGenome N)) →
      (engineRunMins (fun g => Optimized.get_violations_count g N) 30 init offs).length
          = offs.length + 1 ∧
      ∀ m ∈ engineRunMins (fun g => Optimized.get_violations_count g N) 30 init offs, 0 < m) := by
  have hperm2 : ∀ ind : List Int, ind.Perm (rangeGenome 2) →
      0 < Optimized.get_violations_count ind 2 := by
    intro ind h
    have hmem : ind ∈ (rangeGenome 2).permutations' := List.mem_permutations'.2 h
    have hall : ∀ x ∈ (rangeGenome 2).permutations',
        0 < Optimized.get_violations_count x 2 := by decide
    exact hall ind hmem
  have hperm3 : ∀ ind : List Int, ind.Perm (rangeGenome 3) →
      0 < Optimized.get_violations_count ind 3 := by
    intro ind h
    have hmem : ind ∈ (rangeGenome 3).permutations' := List.mem_permutations'.2 h
    have hall : ∀ x ∈ (rangeGenome 3).permutations',
        0 < Optimized.get_violations_count x 3 := by decide
    exact hall ind hmem
  refine ⟨fun ind N hN => loopCount_of_le_one _ hN,
    fun ind N bits hN => loopCount_of_le_one _ hN,
    fun ind N hN => loopCount_of_le_one _ hN,
    hperm2, hperm3, ?_⟩
  intro N init offs hN23 hinit hinitP hoffsP
  have hpos : ∀ g : List Int, g.Perm (rangeGenome N) → 0 < Optimized.get_violations_count g N := by
    rcases hN23 with rfl | rfl
    · exact hperm2
    · exact hperm3
  constructor
  · unfold engineRunMins
    rw [List.length_cons, engineMins_length]
  · intro m hm
    unfold engineRunMins at hm
    have hinitmapne : init.map (fun g => Optimized.get_violations_count g N) ≠ [] :=
      fun h => hinit (List.map_eq_nil_iff.1 h)
    rcases List.mem_cons.1 hm with rfl | hm2
    · refine listMin_pos hinitmapne ?_
      intro a ha
      obtain ⟨g, hg, rfl⟩ := List.mem_map.1 ha
      exact hpos g (hinitP g hg)
    · have hinitne' : ([] : List (List Int)) ++ init ≠ [] := by simpa using hinit
      refine engineMins_pos (fun g => Optimized.get_violations_count g N) 30
        (fun g => g.Perm (rangeGenome N)) hpos (by omega) offs _
        (hofUpdate_ne_nil _ 30 [] init (by omega) hinitne') ?_ hoffsP m hm2
      intro g hg
      rcases List.mem_append.1 (hofUpdate_mem hg) with hg2 | hg2
      · exact absurd hg2 (List.not_mem_nil g)
      · exact hinitP g hg2

/-- Witness for C7 at concrete small boards. -/
theorem small_board_boundary_behaviour_witness :
    IntegerSimple.get_violations_count [5, 7] 1 = 0 ∧
    0 < Optimized.get_violations_count [1, 0] 2 ∧
    (engineRunMins (fun g => Optimized.get_violations_count g 3) 30
      [[0, 1, 2]] [[[2, 0, 1]]]).length = 1 + 1 := by
  obtain ⟨h1, h2, h3, h4, h5, h6⟩ := small_board_boundary_behaviour
  exact ⟨h1 [5, 7] 1 (by decide), h4 [1, 0] (by decide),
    (h6 3 [[0, 1, 2]] [[[2, 0, 1]]] (Or.inr rfl) (by decide) (by decide) (by decide)).1⟩

/-! ## Claim C3: permutation-preserving operators

The genetic operators of the optimized variant are DEAP library functions,
not part of `src/`; they are modelled from the specification (§4.2
"Genetic Operators").  Randomness (the per-position coin flips and partner
choices) is an explicit input. -/

theorem headSwap_perm {α : Type} (d : α) :
    ∀ (xs : List α) (m : Nat) (x : α), m < xs.length →
      (xs.getD m d :: xs.set m x).Perm (x :: xs)
  | [], m, x, h => absurd h (by simp)
  | y :: ys, 0, x, _ => by
    show (y :: x :: ys).Perm (x :: y :: ys)
    exact List.Perm.swap x y ys
  | y :: ys, m + 1, x, h => by
    show (ys.getD m d :: y :: ys.set m x).Perm (x :: y :: ys)
    have h1 : (ys.getD m d :: y :: ys.set m x).Perm (y :: ys.getD m d :: ys.set m x) :=
      List.Perm.swap y (ys.getD m d) (ys.set m x)
    have h2 : (y :: ys.getD m d :: ys.set m x).Perm (y :: x :: ys) :=
      (headSwap_perm d ys m x (by simpa using h)).cons y
    have h3 : (y :: x :: ys).Perm (x :: y :: ys) := List.Perm.swap x y ys
    exact (h1.trans h2).trans h3

/-- Writing the value of position `j` to position `i` and the value of
position `i` to position `j` permutes the list (it transposes two
entries). -/
theorem set_set_perm {α : Type} (d : α) :
    ∀ (a : List α) (i j : Nat), i < a.length → j < a.length →
      ((a.set i (a.getD j d)).set j (a.getD i d)).Perm a
  | [], i, _, hi, _ => absurd hi (by simp)
  | x :: xs, 0, 0, _, _ => by
    simp only [List.getD_cons_zero, List.set_cons_zero]
    exact List.Perm.refl (x :: xs)
  | x :: xs, 0, j + 1, _, hj => by
    simp only [List.getD_cons_zero, List.getD_cons_succ, List.set_cons_zero, List.set_cons_succ]
    exact headSwap_perm d xs j x (by simpa using hj)
  | x :: xs, i + 1, 0, hi, _ => by
    simp only [List.getD_cons_zero, List.getD_cons_succ, List.set_cons_zero, List.set_cons_succ]
    exact headSwap_perm d xs i x (by simpa using hi)
  | x :: xs, i + 1, j + 1, hi, hj => by
    simp only [List.getD_cons_succ, List.set_cons_succ]
    exact (set_set_perm d xs i j (by simpa using hi) (by simpa using hj)).cons x

/-- Modelled from the spec: DEAP's `cxUniformPartialyMatched` as used by the
optimized variant (§4.2: "for each position, with independent probability
`indpb`, swap the values between the two parents at that position, then
repair both children by resolving any resulting duplicate via the classic
PMX mapping (the value evicted from a position is relocated to wherever its
duplicate appeared in the other parent)").  `flips i` is the outcome of the
coin toss for position `i`; the scan runs over `range (min len len)` as in
the library; the incrementally maintained position maps `p1`, `p2` are
rendered as `indexOf` on the current child (they agree on duplicate-free
genomes). -/
def cxUniformPartialyMatched (ind1 ind2 : List Int) (flips : Nat → Bool) :
    List Int × List Int :=
  (List.range (min ind1.length ind2.length)).foldl
    (fun p i =>
      if flips i then
        let t1 := p.1.getD i 0
        let t2 := p.2.getD i 0
        ((p.1.set i t2).set (p.1.indexOf t2) t1,
         (p.2.set i t1).set (p.2.indexOf t1) t2)
      else p)
    (ind1, ind2)

/-- Modelled from the spec: DEAP's `mutShuffleIndexes` (§4.2: "each position
independently, with probability `indpb`, is swapped with another randomly
chosen position — preserves permutation validity").  `flips i` is the coin
toss for position `i` and `partner i` the randomly chosen partner position,
consumed modulo the genome size (the library draws it in range). -/
def mutShuffleIndexes (ind : List Int) (flips : Nat → Bool) (partner : Nat → Nat) :
    List Int :=
  (List.range ind.length).foldl
    (fun l i =>
      if flips i then
        let j := partner i % ind.length
        (l.set i (l.getD j 0)).set j (l.getD i 0)
      else l)
    ind

theorem foldl_inv {α β : Type} (P : α → Prop) (step : α → β → α) :
    ∀ (l : List β) (acc : α), (∀ a b, b ∈ l → P a → P (step a b)) → P acc →
      P (l.foldl step acc)
  | [], acc, _, hacc => hacc
  | b :: bs, acc, hstep, hacc =>
    foldl_inv P step bs (step acc b)
      (fun a b' hb' ha => hstep a b' (List.mem_cons_of_mem b hb') ha)
      (hstep acc b (List.mem_cons_self b bs) hacc)

/-- One PMX half-step (place `t2` at position `i`, relocate the evicted
value to the old position of `t2`) permutes the child. -/
theorem pmxHalf_perm {L a : List Int} (ha : a.Perm L) {t2 : Int} (ht2 : t2 ∈ a)
    {i : Nat} (hi : i < a.length) :
    ((a.set i t2).set (a.indexOf t2) (a.getD i 0)).Perm L := by
  have hj : a.indexOf t2 < a.length := List.indexOf_lt_length.2 ht2
  have ht2' : a.getD (a.indexOf t2) 0 = t2 := by
    rw [a.getD_eq_getElem 0 hj, List.getElem_indexOf hj]
  have hperm := set_set_perm 0 a i (a.indexOf t2) hi hj
  rw [ht2'] at hperm
  exact hperm.trans ha

/-- Every genome that can occur in the optimized variant's population:
initial individuals are permutations (built by `random.sample`), and later
genomes arise by crossover with another population genome or by mutation. -/
inductive ReachableGenome (N : Nat) : List Int → Prop where
  | init (g : List Int) : g.Perm (rangeGenome N) → ReachableGenome N g
  | cxLeft (g₁ g₂ : List Int) (flips : Nat → Bool) : ReachableGenome N g₁ →
      ReachableGenome N g₂ → ReachableGenome N (cxUniformPartialyMatched g₁ g₂ flips).1
  | cxRight (g₁ g₂ : List Int) (flips : Nat → Bool) : ReachableGenome N g₁ →
      ReachableGenome N g₂ → ReachableGenome N (cxUniformPartialyMatched g₁ g₂ flips).2
  | mutate (g : List Int) (flips : Nat → Bool) (partner : Nat → Nat) : ReachableGenome N g →
      ReachableGenome N (mutShuffleIndexes g flips partner)

/-- **C3.** Modelled from the spec: uniform partially-matched crossover on
two valid permutations of `[0, N-1]` yields two valid permutations, the
shuffle-indexes mutation preserves permutation validity, and consequently
every genome reachable in the optimized variant's population — built from
permutations by crossover and mutation — is a valid permutation at all
times. -/
theorem operators_preserve_permutations (N : Nat) :
    (∀ (ind1 ind2 : List Int) (flips : Nat → Bool),
      ind1.Perm (rangeGenome N) → ind2.Perm (rangeGenome N) →
      (cxUniformPartialyMatched ind1 ind2 flips).1.Perm (rangeGenome N) ∧
      (cxUniformPartialyMatched ind1 ind2 flips).2.Perm (rangeGenome N)) ∧
    (∀ (ind : List Int) (flips : Nat → Bool) (partner : Nat → Nat),
      ind.Perm (rangeGenome N) →
      (mutShuffleIndexes ind flips partner).Perm (rangeGenome N)) ∧
    (∀ g : List Int, ReachableGenome N g → g.Perm (rangeGenome N)) := by
  have hcx : ∀ (ind1 ind2 : List Int) (flips : Nat → Bool),
      ind1.Perm (rangeGenome N) → ind2.Perm (rangeGenome N) →
      (cxUniformPartialyMatched ind1 ind2 flips).1.Perm (rangeGenome N) ∧
      (cxUniformPartialyMatched ind1 ind2 flips).2.Perm (rangeGenome N) := by
    intro ind1 ind2 flips h1 h2
    unfold cxUniformPartialyMatched
    refine foldl_inv
      (fun p : List Int × List Int => p.1.Perm (rangeGenome N) ∧ p.2.Perm (rangeGenome N))
      _ _ _ ?_ ⟨h1, h2⟩
    intro p i hi hp
    by_cases hf : flips i
    · simp only [hf, if_true]
      have hi1 : i < p.1.length := by
        rw [hp.1.length_eq]
        rw [List.mem_range] at hi
        have e1 := h1.length_eq
        have e2 := h2.length_eq
        omega
      have hi2 : i < p.2.length := by
        rw [hp.2.length_eq]
        rw [List.mem_range] at hi
        have e1 := h1.length_eq
        have e2 := h2.length_eq
        omega
      have ht2mem : p.2.getD i 0 ∈ p.1 := by
        have : p.2.getD i 0 ∈ p.2 := by
          rw [p.2.getD_eq_getElem 0 hi2]
          exact List.getElem_mem hi2
        exact (hp.2.trans hp.1.symm).mem_iff.1 this
      have ht1mem : p.1.getD i 0 ∈ p.2 := by
        have : p.1.getD i 0 ∈ p.1 := by
          rw [p.1.getD_eq_getElem 0 hi1]
          exact List.getElem_mem hi1
        exact (hp.1.trans hp.2.symm).mem_iff.1 this
      exact ⟨pmxHalf_perm hp.1 ht2mem hi1, pmxHalf_perm hp.2 ht1mem hi2⟩
    · simpa [hf] using hp
  have hmut : ∀ (ind : List Int) (flips : Nat → Bool) (partner : Nat → Nat),
      ind.Perm (rangeGenome N) →
      (mutShuffleIndexes ind flips partner).Perm (rangeGenome N) := by
    intro ind flips partner h
    unfold mutShuffleIndexes
    refine foldl_inv (fun l : List Int => l.Perm (rangeGenome N)) _ _ _ ?_ h
    intro l i hi hl
    by_cases hf : flips i
    · simp only [hf, if_true]
      rw [List.mem_range] at hi
      have hlen : l.length = ind.length := by rw [hl.length_eq, h.length_eq]
      have hi1 : i < l.length := by omega
      have hj1 : partner i % ind.length < l.length := by
        rw [hlen]
        exact Nat.mod_lt _ (by omega)
      exact (set_set_perm 0 l i (partner i % ind.length) hi1 hj1).trans hl
    · simpa [hf] using hl
  refine ⟨hcx, hmut, ?_⟩
  intro g hg
  induction hg with
  | init g hperm => exact hperm
  | cxLeft g₁ g₂ flips _ _ ih1 ih2 => exact (hcx g₁ g₂ flips ih1 ih2).1
  | cxRight g₁ g₂ flips _ _ ih1 ih2 => exact (hcx g₁ g₂ flips ih1 ih2).2
  | mutate g flips partner _ ih => exact hmut g flips partner ih

/-- Witness for C3: crossover on `[1,0]`/`[0,1]` with every position
selected, mutation of `[2,0,1]` swapping position `0` with position `2`,
and a genome reached by both operators. -/
theorem operators_preserve_permutations_witness :
    (cxUniformPartialyMatched [1, 0] [0, 1] (fun _ => true)).1.Perm (rangeGenome 2) ∧
    (mutShuffleIndexes [2, 0, 1] (fun i => i == 0) (fun _ => 2)).Perm (rangeGenome 3) ∧
    (mutShuffleIndexes
      (cxUniformPartialyMatched [0, 1, 2] [2, 0, 1] (fun i => i == 1)).2
      (fun _ => true) (fun i => i + 1)).Perm (rangeGenome 3) := by
  refine ⟨((operators_preserve_permutations 2).1 [1, 0] [0, 1] _ (by decide) (by decide)).1,
    (operators_preserve_permutations 3).2.1 [2, 0, 1] _ _ (by decide),
    (operators_preserve_permutations 3).2.2 _ ?_⟩
  exact ReachableGenome.mutate _ _ _
    (ReachableGenome.cxRight [0, 1, 2] [2, 0, 1] _
      (ReachableGenome.init _ (by decide)) (ReachableGenome.init _ (by decide)))

/-! ## Claim C8: configuration validation at engine construction

Each variant entry point (`variant_ag_*`, in `src/`) performs **no**
validation of its configuration: the functions only register operators on
the toolbox, build the initial population and start the evolution.  The
embeddings below capture exactly which exceptions can occur before the
evolutionary loop starts, with the probabilities modelled as rationals. -/

namespace IntegerSimple

/-- Construction phase of `variant_ag_integer_simple`
(`variant_ga_integer_simple.py`, lines 44–110 up to the `eaSimple` call):
no configuration value is checked; the only failure before evolution is the
`ZeroDivisionError` raised by evaluating `indpb=1.0/queens_amount` at
operator registration when `queens_amount = 0` (`random.choices` accepts
any other `queens_amount`, returning `[]` for non-positive ones). -/
def variant_construct (queens_amount population_size : Int) (cxpb mutpb : ℚ)
    (ngen : Int) : Except String Unit :=
  if queens_amount = 0 then Except.error "ZeroDivisionError: division by zero"
  else Except.ok ()

end IntegerSimple

namespace BinarySimple

/-- Construction phase of `variant_ag_binary_simple`
(`variant_ga_binary_simple.py`, lines 87–139 up to the `eaSimple` call): no
configuration value is checked; the only failure before evolution is the
math-domain `ValueError` raised by `math.log2(queens_amount)` when
`queens_amount ≤ 0` (it precedes the `1.0/queens_amount` registration). -/
def variant_construct (queens_amount population_size : Int) (cxpb mutpb : ℚ)
    (ngen : Int) : Except String Unit :=
  if queens_amount ≤ 0 then Except.error "ValueError: math domain error"
  else Except.ok ()

end BinarySimple

namespace Optimized

/-- Construction phase of `variant_ag_optimized`
(`variant_ga_optimized.py`, lines 52–110 up to the `eaSimpleWithElitism`
call): no configuration value is checked (in particular the hall-of-fame
size 30 is never compared with the population size); the only failures
before evolution are the `ZeroDivisionError` from `indpb=2.0/queens_amount`
when `queens_amount = 0` and the `ValueError` from
`random.sample(range(queens_amount), queens_amount)` when
`queens_amount < 0`. -/
def variant_construct (queens_amount population_size : Int) (cxpb mutpb : ℚ)
    (ngen : Int) : Except String Unit :=
  if queens_amount = 0 then Except.error "ZeroDivisionError: division by zero"
  else if queens_amount < 0 then
    Except.error "ValueError: sample larger than population or is negative"
  else Except.ok ()

end Optimized

/-- Counterexample to C8: the crossover probability `3/2` lies outside
`[0, 1]`, yet every variant entry point constructs and starts evolving
without any configuration error. -/
theorem config_not_validated_counterexample :
    (1 : ℚ) < 3 / 2 ∧
    IntegerSimple.variant_construct 4 300 (3 / 2) (1 / 10) 200 = Except.ok () ∧
    BinarySimple.variant_construct 4 300 (3 / 2) (1 / 10) 200 = Except.ok () ∧
    Optimized.variant_construct 4 300 (3 / 2) (1 / 10) 200 = Except.ok () := by
  exact ⟨by norm_num, rfl, rfl, rfl⟩

/-- **C8 (amended).** The entry points never validate their configuration:
for every `queens_amount ≥ 1` construction succeeds for arbitrary crossover
and mutation probabilities (also outside `[0, 1]`), arbitrary population
size and generation count, and the optimized variant's elite size is never
checked against the population size; the only construction-time failures
are the incidental exceptions for non-positive `queens_amount`, which are
not configuration errors. -/
theorem construct_accepts_any_configuration (queens_amount population_size : Int)
    (cxpb mutpb : ℚ) (ngen : Int) (hq : 1 ≤ queens_amount) :
    IntegerSimple.variant_construct queens_amount population_size cxpb mutpb ngen
        = Except.ok () ∧
    BinarySimple.variant_construct queens_amount population_size cxpb mutpb ngen
        = Except.ok () ∧
    Optimized.variant_construct queens_amount population_size cxpb mutpb ngen
        = Except.ok () := by
  unfold IntegerSimple.variant_construct BinarySimple.variant_construct
    Optimized.variant_construct
  rw [if_neg (by omega), if_neg (by omega), if_neg (by omega), if_neg (by omega)]
  exact ⟨rfl, rfl, rfl⟩

/-- Witness for the amended C8 at an invalid configuration (negative
mutation probability, population smaller than the elite size). -/
theorem construct_accepts_any_configuration_witness :
    IntegerSimple.variant_construct 4 5 (3 / 2) (-1 / 10) 200 = Except.ok () ∧
    BinarySimple.variant_construct 4 5 (3 / 2) (-1 / 10) 200 = Except.ok () ∧
    Optimized.variant_construct 4 5 (3 / 2) (-1 / 10) 200 = Except.ok () :=
  construct_accepts_any_configuration 4 5 (3 / 2) (-1 / 10) 200 (by decide)

/-! ## Claim C9: each variant is a deterministic function of seed and config

The random draws of a run all come from the single `random` stream of the
master process (selection, crossover, mutation, population creation), and
the parallel `pool.map` evaluation is order-preserving and pure, so a run
is a function of the seed and the configuration.  The engine and the DEAP
operators are not in `src/`; the full runs below are modelled from the
specification (§4.2–4.4, §6), with a linear congruential generator standing
in for Python's seeded Mersenne twister and the source evaluation functions
plugged in. -/

/-- Modelled from the spec (§6 `random_seed`): the deterministic
pseudo-random stream; one LCG step. -/
def lcg (s : Nat) : Nat := (1103515245 * s + 12345) % 2 ^ 31

/-- Draw a number below `bound` (uniform choice of an index), new state. -/
def randNat (s bound : Nat) : Nat × Nat := (lcg s % max bound 1, lcg s)

/-- Bernoulli draw `random() < p` on a `10^6` grid, new state. -/
def randBool (s : Nat) (p : ℚ) : Bool × Nat :=
  (((lcg s % 1000000 : Nat) : ℚ) / 1000000 < p, lcg s)

/-- Independent per-position coin flips with probability `p`, derived from
one stream value. -/
def flipsFrom (s : Nat) (p : ℚ) : Nat → Bool :=
  fun i => ((lcg (s + i) % 1000000 : Nat) : ℚ) / 1000000 < p

/-- A run's configuration (§6): board size, population size, crossover and
mutation probabilities, generation count. -/
structure Config where
  queens_amount : Nat
  population_size : Nat
  cxpb : ℚ
  mutpb : ℚ
  ngen : Nat

/-- A run's outcome: the Logbook of per-generation `(min, mean)` fitness
records, the best genome found (head of the hall of fame) and the final
population. -/
structure RunResult (α : Type) where
  logbook : List (Nat × ℚ)
  best : Option α
  population : List α

/-- Tournament selection of size 2 (§4.2), `n` independent tournaments:
draw two indices, keep the individual with the better (smaller) fitness,
the first drawn on ties. -/
def selTournament {α : Type} (f : α → Nat) (dflt : α) (pop : List α) (n s : Nat) :
    List α × Nat :=
  (List.range n).foldl
    (fun acc _ =>
      let r1 := randNat acc.2 pop.length
      let r2 := randNat r1.2 pop.length
      let a := pop.getD r1.1 dflt
      let b := pop.getD r2.1 dflt
      (acc.1 ++ [if f a ≤ f b then a else b], r2.2))
    ([], s)

/-- The crossover half of the variation pass (§4.3 step 2): adjacent pairs
of the mating pool are mated with independent probability `cxpb`. -/
def applyCx {α : Type} (cx : α → α → Nat → α × α × Nat) (cxpb : ℚ) :
    List α → Nat → List α × Nat
  | a :: b :: rest, s =>
    let coin := randBool s cxpb
    if coin.1 then
      let r := cx a b coin.2
      let rest' := applyCx cx cxpb rest r.2.2
      (r.1 :: r.2.1 :: rest'.1, rest'.2)
    else
      let rest' := applyCx cx cxpb rest coin.2
      (a :: b :: rest'.1, rest'.2)
  | l, s => (l, s)

/-- The mutation half of the variation pass (§4.3 step 2): each individual
is mutated with independent probability `mutpb`. -/
def applyMut {α : Type} (mutOp : α → Nat → α × Nat) (mutpb : ℚ) :
    List α → Nat → List α × Nat
  | [], s => ([], s)
  | a :: rest, s =>
    let coin := randBool s mutpb
    if coin.1 then
      let r := mutOp a coin.2
      let rest' := applyMut mutOp mutpb rest r.2
      (r.1 :: rest'.1, rest'.2)
    else
      let rest' := applyMut mutOp mutpb rest coin.2
      (a :: rest'.1, rest'.2)

/-- One Logbook record (§3): minimum and mean fitness of the population. -/
def recordStats {α : Type} (f : α → Nat) (pop : List α) : Nat × ℚ :=
  (listMin (pop.map f), ((pop.map f).sum : ℚ) / (pop.length : ℚ))

/-- Modelled from the spec (§4.3): one full generation — tournament
selection of `popsize - inject` parents, two-stage variation, injection of
the elites (`inject = 0` for the simple variants, which re-select a full
population and keep no elites), refresh of the hall of fame of size `hofK`,
and a Logbook record. -/
def gaGeneration {α : Type} (f : α → Nat) (dflt : α) (hofK inject : Nat)
    (cx : α → α → Nat → α × α × Nat) (mutOp : α → Nat → α × Nat) (cfg : Config)
    (st : List α × List α × Nat) : (List α × List α × Nat) × (Nat × ℚ) :=
  let pop := st.1
  let hof := st.2.1
  let sel := selTournament f dflt pop (cfg.population_size - inject) st.2.2
  let crossed := applyCx cx cfg.cxpb sel.1 sel.2
  let mutated := applyMut mutOp cfg.mutpb crossed.1 crossed.2
  let pop' := mutated.1 ++ hof.take inject
  let hof' := hofUpdate f hofK hof pop'
  ((pop', hof', mutated.2), recordStats f pop')

/-- Modelled from the spec (§4.3): a full run — evaluate and record the
initial population, seed the hall of fame, iterate `ngen` generations, and
return the Logbook, the best-ever genome and the final population. -/
def gaRun {α : Type} (f : α → Nat) (dflt : α) (hofK inject : Nat)
    (cx : α → α → Nat → α × α × Nat) (mutOp : α → Nat → α × Nat) (cfg : Config)
    (pop0 : List α) (s0 : Nat) : RunResult α :=
  let hof0 := hofUpdate f hofK [] pop0
  let final := (List.range cfg.ngen).foldl
    (fun (acc : (List α × List α × Nat) × List (Nat × ℚ)) _ =>
      let next := gaGeneration f dflt hofK inject cx mutOp cfg acc.1
      (next.1, acc.2 ++ [next.2]))
    ((pop0, hof0, s0), [recordStats f pop0])
  { logbook := final.2
    best := final.1.2.1.head?
    population := final.1.1 }

/-- Modelled from the spec: DEAP's one-point crossover (§4.2): one cut index
drawn uniformly in `[1, size-1]`; the children exchange tails. -/
def cxOnePoint {α : Type} (a b : List α) (s : Nat) : List α × List α × Nat :=
  let size := min a.length b.length
  let c := 1 + lcg s % max (size - 1) 1
  (a.take c ++ b.drop c, b.take c ++ a.drop c, lcg s)

/-- Modelled from the spec: DEAP's `mutUniformInt` (§4.2 "uniform-reset"):
each gene independently reassigned to a uniform value in `[0, queens-1]`
with probability `indpb`. -/
def mutUniformIntM (queens : Nat) (indpb : ℚ) (a : List Int) (s : Nat) :
    List Int × Nat :=
  ((List.range a.length).foldl
    (fun l i =>
      if flipsFrom (lcg s) indpb i then
        l.set i ((lcg (lcg s + i) % max queens 1 : Nat) : Int)
      else l) a,
   lcg (lcg s))

/-- Modelled from the spec: DEAP's `mutFlipBit` (§4.2 "bit-flip"): each bit
independently flipped with probability `indpb`. -/
def mutFlipBitM (indpb : ℚ) (a : List Nat) (s : Nat) : List Nat × Nat :=
  ((List.range a.length).foldl
    (fun l i => if flipsFrom (lcg s) indpb i then l.set i (1 - l.getD i 0) else l) a,
   lcg s)

/-- The optimized variant's crossover operator with its stream-derived coin
flips (`indpb = 2/queens_amount`). -/
def cxOptimized (queens : Nat) (a b : List Int) (s : Nat) :
    List Int × List Int × Nat :=
  let r := cxUniformPartialyMatched a b (flipsFrom (lcg s) (2 / (queens : ℚ)))
  (r.1, r.2, lcg s)

/-- The optimized variant's mutation operator with its stream-derived coin
flips (`indpb = 1/queens_amount`) and partner choices. -/
def mutOptimized (queens : Nat) (a : List Int) (s : Nat) : List Int × Nat :=
  (mutShuffleIndexes a (flipsFrom (lcg s) (1 / (queens : ℚ))) (fun i => lcg (lcg s + i)),
   lcg (lcg s))

/-- Modelled from the spec: `random.sample(range(N), N)` — a random
permutation, obtained by shuffling the identity permutation. -/
def randPerm (queens s : Nat) : List Int :=
  mutShuffleIndexes (rangeGenome queens) (fun _ => true) (fun i => lcg (s + i))

/-- Initial population of the optimized variant: random permutations. -/
def initPopOptimized (queens n s : Nat) : List (List Int) × Nat :=
  ((List.range n).map fun k => randPerm queens (lcg (s + k)), lcg s)

/-- Initial population of the integer variant:
`random.choices(range(N), k=N)` — values drawn with repetition. -/
def initPopInteger (queens n s : Nat) : List (List Int) × Nat :=
  ((List.range n).map fun k =>
      (List.range queens).map fun i => ((lcg (lcg (s + k) + i) % max queens 1 : Nat) : Int),
   lcg s)

/-- Initial population of the binary variant: `bits_amount*queens_amount`
random bits per individual. -/
def initPopBinary (queens bits n s : Nat) : List (List Nat) × Nat :=
  ((List.range n).map fun k =>
      (List.range (bits * queens)).map fun i => lcg (lcg (s + k) + i) % 2,
   lcg s)

/-- Modelled from the spec: a full run of `variant_ag_optimized` — elite
set of size 30, injected each generation, PMX crossover, shuffle mutation,
the source evaluation `Optimized.get_violations_count`. -/
def variant_ag_optimized_run (seed : Nat) (cfg : Config) : RunResult (List Int) :=
  let f := fun g => Optimized.get_violations_count g cfg.queens_amount
  let ip := initPopOptimized cfg.queens_amount cfg.population_size seed
  gaRun f [] 30 30 (cxOptimized cfg.queens_amount) (mutOptimized cfg.queens_amount)
    cfg ip.1 ip.2

/-- Modelled from the spec: a full run of `variant_ag_integer_simple` — no
elitism (hall of fame of size 1 only tracks the best), one-point crossover,
uniform-reset mutation, the source evaluation
`IntegerSimple.get_violations_count`. -/
def variant_ag_integer_simple_run (seed : Nat) (cfg : Config) : RunResult (List Int) :=
  let f := fun g => IntegerSimple.get_violations_count g cfg.queens_amount
  let ip := initPopInteger cfg.queens_amount cfg.population_size seed
  gaRun f [] 1 0 cxOnePoint
    (mutUniformIntM cfg.queens_amount (1 / (cfg.queens_amount : ℚ))) cfg ip.1 ip.2

/-- Modelled from the spec: a full run of `variant_ag_binary_simple` — no
elitism, one-point crossover on raw bits, bit-flip mutation, the source
evaluation `BinarySimple.get_violations_count` with
`bits_amount = ceil(log2 queens_amount)`. -/
def variant_ag_binary_simple_run (seed : Nat) (cfg : Config) : RunResult (List Nat) :=
  let bits := Nat.clog 2 cfg.queens_amount
  let f := fun g => BinarySimple.get_violations_count g cfg.queens_amount bits
  let ip := initPopBinary cfg.queens_amount bits cfg.population_size seed
  gaRun f [] 1 0 cxOnePoint (mutFlipBitM (1 / (cfg.queens_amount : ℚ))) cfg ip.1 ip.2

/-- **C9.** Two runs of any of the three variants with the same random seed
and identical configuration values produce an identical Logbook and an
identical best genome: each modelled run is a pure function of the seed and
the configuration — every random draw comes from the seeded stream and the
batch evaluation is order-preserving and pure. -/
theorem variants_deterministic (s₁ s₂ : Nat) (cfg₁ cfg₂ : Config)
    (hs : s₁ = s₂) (hcfg : cfg₁ = cfg₂) :
    ((variant_ag_integer_simple_run s₁ cfg₁).logbook
        = (variant_ag_integer_simple_run s₂ cfg₂).logbook ∧
      (variant_ag_integer_simple_run s₁ cfg₁).best
        = (variant_ag_integer_simple_run s₂ cfg₂).best) ∧
    ((variant_ag_binary_simple_run s₁ cfg₁).logbook
        = (variant_ag_binary_simple_run s₂ cfg₂).logbook ∧
      (variant_ag_binary_simple_run s₁ cfg₁).best
        = (variant_ag_binary_simple_run s₂ cfg₂).best) ∧
    ((variant_ag_optimized_run s₁ cfg₁).logbook
        = (variant_ag_optimized_run s₂ cfg₂).logbook ∧
      (variant_ag_optimized_run s₁ cfg₁).best
        = (variant_ag_optimized_run s₂ cfg₂).best) := by
  subst hs
  subst hcfg
  exact ⟨⟨rfl, rfl⟩, ⟨rfl, rfl⟩, ⟨rfl, rfl⟩⟩

/-- Witness for C9 at seed `1500` (the `RANDOM_SEED` constant of `main.py`)
and a small concrete configuration. -/
theorem variants_deterministic_witness :
    ((variant_ag_integer_simple_run 1500 ⟨4, 6, 9 / 10, 1 / 10, 2⟩).logbook
        = (variant_ag_integer_simple_run 1500 ⟨4, 6, 9 / 10, 1 / 10, 2⟩).logbook ∧
      (variant_ag_integer_simple_run 1500 ⟨4, 6, 9 / 10, 1 / 10, 2⟩).best
        = (variant_ag_integer_simple_run 1500 ⟨4, 6, 9 / 10, 1 / 10, 2⟩).best) ∧
    ((variant_ag_binary_simple_run 1500 ⟨4, 6, 9 / 10, 1 / 10, 2⟩).logbook
        = (variant_ag_binary_simple_run 1500 ⟨4, 6, 9 / 10, 1 / 10, 2⟩).logbook ∧
      (variant_ag_binary_simple_run 1500 ⟨4, 6, 9 / 10, 1 / 10, 2⟩).best
        = (variant_ag_binary_simple_run 1500 ⟨4, 6, 9 / 10, 1 / 10, 2⟩).best) ∧
    ((variant_ag_optimized_run 1500 ⟨4, 6, 9 / 10, 1 / 10, 2⟩).logbook
        = (variant_ag_optimized_run 1500 ⟨4, 6, 9 / 10, 1 / 10, 2⟩).logbook ∧
      (variant_ag_optimized_run 1500 ⟨4, 6, 9 / 10, 1 / 10, 2⟩).best
        = (variant_ag_optimized_run 1500 ⟨4, 6, 9 / 10, 1 / 10, 2⟩).best) :=
  variants_deterministic 1500 1500 ⟨4, 6, 9 / 10, 1 / 10, 2⟩ ⟨4, 6, 9 / 10, 1 / 10, 2⟩
    rfl rfl
